import Mathlib

/-!
Verification development for the babycare RAG retrieval core
(`babycare_rag/search_engine.py`, `babycare_rag/document_processor.py`).

The Python code is shallowly embedded: texts are `List Char`, floats are
modelled by `ℚ` wherever the code only performs field arithmetic, and by
`ℝ` (via `Real.log`) for the BM25 idf term.  Stateful operations
(metadata file, vector index file) are explicit state-passing functions,
and the external embedding provider is an oracle parameter.
-/

namespace BabycareRAG

/-! ### Reciprocal rank fusion (`SearchEngine._reciprocal_rank_fusion`) -/

/-- `bm25_ranks = {idx: rank + 1 for rank, (idx, _) in enumerate(results)}`:
the 1-based rank of `idx` in a result list.  A Python dict comprehension keeps
the last binding when an index repeats, hence `getLast?`. -/
def dictRanks (l : List ℕ) (idx : ℕ) : Option ℕ :=
  match (l.enum.filter (fun p => p.2 == idx)).getLast? with
  | some p => some (p.1 + 1)
  | none => none

/-- `ranks.get(idx, len(results) + 1)`: the rank used by the fusion, falling
back to the length of the list the index is missing from, plus one. -/
def rankUsed (l : List ℕ) (idx : ℕ) : ℕ :=
  (dictRanks l idx).getD (l.length + 1)

/-- Ascending insertion, used to model CPython's iteration order over a set
of small nonnegative ints (ascending by value for values below the hash-table
size, which covers the chunk indices arising in this code base). -/
def insertAsc (x : ℕ) : List ℕ → List ℕ
  | [] => [x]
  | y :: ys => if x ≤ y then x :: y :: ys else y :: insertAsc x ys

/-- Sort a list of naturals ascending (model of small-int set iteration). -/
def sortAsc (l : List ℕ) : List ℕ := l.foldr insertAsc []

/-- Stable descending insertion by score: an element is placed before the
first element whose score is not strictly greater, so earlier elements win
ties, exactly like Python's stable `list.sort(..., reverse=True)`. -/
def insertScoreDesc (p : ℕ × ℚ) : List (ℕ × ℚ) → List (ℕ × ℚ)
  | [] => [p]
  | q :: qs => if p.2 < q.2 then q :: insertScoreDesc p qs else p :: q :: qs

/-- Stable descending sort by score (`rrf_scores.sort(key=..., reverse=True)`). -/
def sortScoresDesc (l : List (ℕ × ℚ)) : List (ℕ × ℚ) := l.foldr insertScoreDesc []

/-- `SearchEngine._reciprocal_rank_fusion(bm25_results, vector_results, k)`.
The scores carried by the input pairs are ignored by the code; only list
order matters.  `all_indices = set(bm25_ranks) | set(vector_ranks)` is
modelled as the deduplicated union sorted ascending. -/
def reciprocal_rank_fusion (bm25_results vector_results : List (ℕ × ℚ))
    (k : ℕ) : List (ℕ × ℚ) :=
  let bmIdx := bm25_results.map Prod.fst
  let vecIdx := vector_results.map Prod.fst
  let allIndices := sortAsc ((bmIdx ++ vecIdx).dedup)
  let rrfScores := allIndices.map (fun idx =>
    (idx, (1 : ℚ) / ((k + rankUsed bmIdx idx : ℕ) : ℚ)
        + (1 : ℚ) / ((k + rankUsed vecIdx idx : ℕ) : ℚ)))
  sortScoresDesc rrfScores

/-! ### Chunking (`DocumentProcessor._chunk_document`) -/

/-- A chunk record as produced by `_chunk_document`. -/
structure ChunkRec where
  id : String
  doc_id : String
  chunk_id : ℕ
  text : List Char
  start_pos : ℕ
  end_pos : ℕ
deriving DecidableEq, Repr

/-- A default chunk, used only as the `getD` fallback. -/
def dummyChunk : ChunkRec := ⟨"", "", 0, [], 0, 0⟩

/-- `content[i] in '.!?'`. -/
def isSentenceChar (c : Char) : Bool := c = '.' || c = '!' || c = '?'

/-- Python `str.strip()`: drop whitespace from both ends. -/
def strip (s : List Char) : List Char :=
  ((s.dropWhile Char.isWhitespace).reverse.dropWhile Char.isWhitespace).reverse

/-- Python slice `content[a:b]` (for `0 ≤ a ≤ b`). -/
def slice (content : List Char) (a b : ℕ) : List Char :=
  (content.take b).drop a

/-- Downward scan of `for i in range(e, ss, -1)`, with `n` iterations left
and `i` the current position: the first `i` whose character ends a sentence,
mapped to `i + 1`.  Structural recursion on the iteration count. -/
def findSentenceEndAux (content : List Char) : ℕ → ℕ → Option ℕ
  | 0, _ => none
  | n + 1, i =>
    if isSentenceChar (content.getD i ' ') then some (i + 1)
    else findSentenceEndAux content n (i - 1)

/-- `for i in range(e, ss, -1): if content[i] in '.!?': sentence_end = i + 1`
with early exit: the scan runs over `i = e, e-1, …, ss+1`, i.e. `e - ss`
iterations starting at `e`. -/
def findSentenceEnd (content : List Char) (e ss : ℕ) : Option ℕ :=
  findSentenceEndAux content (e - ss) e

/-- The end position of the chunk starting at `start`: `end = start +
chunk_size`, snapped back to a sentence boundary found in the last 100
characters when `end` falls inside the content. -/
def chunkEnd (content : List Char) (chunk_size start : ℕ) : ℕ :=
  let e0 := start + chunk_size
  if e0 < content.length then
    match findSentenceEnd content e0 (max start (e0 - 100)) with
    | some se => se
    | none => e0
  else e0

/-- `start = end - overlap if end < len(content) else end`. -/
def chunkNextStart (content : List Char) (overlap e : ℕ) : ℕ :=
  if e < content.length then e - overlap else e

/-- One unrolling of the `while start < len(content)` loop of
`_chunk_document`, with explicit fuel; `none` means the fuel ran out, i.e.
the Python loop has not returned after that many iterations.  The loop guard
is evaluated before fuel is consumed in both branches, exactly mirroring the
`while` statement. -/
def chunkLoop (content : List Char) (docId : String) (chunk_size overlap : ℕ) :
    ℕ → ℕ → ℕ → Option (List ChunkRec)
  | 0, start, _ => if start < content.length then none else some []
  | fuel + 1, start, cid =>
    if start < content.length then
      let e := chunkEnd content chunk_size start
      let text := strip (slice content start e)
      match chunkLoop content docId chunk_size overlap fuel
              (chunkNextStart content overlap e)
              (if text = [] then cid else cid + 1) with
      | none => none
      | some rest =>
          some (if text = [] then rest
                else { id := docId ++ "_" ++ toString cid, doc_id := docId,
                       chunk_id := cid, text := text,
                       start_pos := start, end_pos := e } :: rest)
    else some []

/-- `DocumentProcessor._chunk_document(content, doc_id)` with explicit fuel. -/
def chunk_document (fuel : ℕ) (content : List Char) (docId : String)
    (chunk_size overlap : ℕ) : Option (List ChunkRec) :=
  chunkLoop content docId chunk_size overlap fuel 0 0

/-! ### MD5 (`hashlib.md5(...).hexdigest()`), needed because
`_process_single_document` derives `doc_id` from it. -/

/-- 32-bit left rotation on naturals below `2^32` (shift amounts `0 < n < 32`;
the two parts occupy disjoint bit ranges, so `+` is bitwise or). -/
def rotl32 (x n : ℕ) : ℕ := (x * 2 ^ n) % 2 ^ 32 + x / 2 ^ (32 - n)

/-- Bitwise complement within 32 bits, for `x < 2^32`. -/
def mnot (x : ℕ) : ℕ := 4294967295 - x

/-- MD5 round function F. -/
def mF (x y z : ℕ) : ℕ := (x &&& y) ||| (mnot x &&& z)

/-- MD5 round function G. -/
def mG (x y z : ℕ) : ℕ := (x &&& z) ||| (y &&& mnot z)

/-- MD5 round function H. -/
def mH (x y z : ℕ) : ℕ := x ^^^ y ^^^ z

/-- MD5 round function I. -/
def mI (x y z : ℕ) : ℕ := y ^^^ (x ||| mnot z)

/-- The MD5 sine-derived constant table. -/
def md5K : List ℕ :=
  [0xd76aa478, 0xe8c7b756, 0x242070db, 0xc1bdceee,
   0xf57c0faf, 0x4787c62a, 0xa8304613, 0xfd469501,
   0x698098d8, 0x8b44f7af, 0xffff5bb1, 0x895cd7be,
   0x6b901122, 0xfd987193, 0xa679438e, 0x49b40821,
   0xf61e2562, 0xc040b340, 0x265e5a51, 0xe9b6c7aa,
   0xd62f105d, 0x02441453, 0xd8a1e681, 0xe7d3fbc8,
   0x21e1cde6, 0xc33707d6, 0xf4d50d87, 0x455a14ed,
   0xa9e3e905, 0xfcefa3f8, 0x676f02d9, 0x8d2a4c8a,
   0xfffa3942, 0x8771f681, 0x6d9d6122, 0xfde5380c,
   0xa4beea44, 0x4bdecfa9, 0xf6bb4b60, 0xbebfbc70,
   0x289b7ec6, 0xeaa127fa, 0xd4ef3085, 0x04881d05,
   0xd9d4d039, 0xe6db99e5, 0x1fa27cf8, 0xc4ac5665,
   0xf4292244, 0x432aff97, 0xab9423a7, 0xfc93a039,
   0x655b59c3, 0x8f0ccc92, 0xffeff47d, 0x85845dd1,
   0x6fa87e4f, 0xfe2ce6e0, 0xa3014314, 0x4e0811a1,
   0xf7537e82, 0xbd3af235, 0x2ad7d2bb, 0xeb86d391]

/-- The MD5 per-round shift table. -/
def md5S : List ℕ :=
  [7, 12, 17, 22, 7, 12, 17, 22, 7, 12, 17, 22, 7, 12, 17, 22,
   5, 9, 14, 20, 5, 9, 14, 20, 5, 9, 14, 20, 5, 9, 14, 20,
   4, 11, 16, 23, 4, 11, 16, 23, 4, 11, 16, 23, 4, 11, 16, 23,
   6, 10, 15, 21, 6, 10, 15, 21, 6, 10, 15, 21, 6, 10, 15, 21]

/-- The message-word index used at round `i`. -/
def md5gIdx (i : ℕ) : ℕ :=
  if i < 16 then i
  else if i < 32 then (5 * i + 1) % 16
  else if i < 48 then (3 * i + 5) % 16
  else (7 * i) % 16

/-- The round function applied at round `i`. -/
def md5fVal (i b c d : ℕ) : ℕ :=
  if i < 16 then mF b c d
  else if i < 32 then mG b c d
  else if i < 48 then mH b c d
  else mI b c d

/-- `n` MD5 rounds starting at round index `i` over message words `M`
(structural recursion on the round count). -/
def md5stepsAux (M : List ℕ) : ℕ → ℕ → ℕ × ℕ × ℕ × ℕ → ℕ × ℕ × ℕ × ℕ
  | 0, _, st => st
  | n + 1, i, (a, b, c, d) =>
    let f := (md5fVal i b c d + a + md5K.getD i 0 + M.getD (md5gIdx i) 0) % 2 ^ 32
    md5stepsAux M n (i + 1) (d, (b + rotl32 f (md5S.getD i 0)) % 2 ^ 32, b, c)

/-- The 64 rounds of one MD5 block over message words `M`. -/
def md5steps (M : List ℕ) (st : ℕ × ℕ × ℕ × ℕ) : ℕ × ℕ × ℕ × ℕ :=
  md5stepsAux M 64 0 st

/-- One 64-byte MD5 block: run the 64 rounds, then add the result into the
running state modulo `2^32`. -/
def md5block (st : ℕ × ℕ × ℕ × ℕ) (M : List ℕ) : ℕ × ℕ × ℕ × ℕ :=
  let r := md5steps M st
  ((st.1 + r.1) % 2 ^ 32, (st.2.1 + r.2.1) % 2 ^ 32,
   (st.2.2.1 + r.2.2.1) % 2 ^ 32, (st.2.2.2 + r.2.2.2) % 2 ^ 32)

/-- `n` little-endian bytes of `x`. -/
def leBytes : ℕ → ℕ → List ℕ
  | 0, _ => []
  | n + 1, x => x % 256 :: leBytes n (x / 256)

/-- Group bytes into little-endian 32-bit words. -/
def toWords : List ℕ → List ℕ
  | b0 :: b1 :: b2 :: b3 :: rest =>
      (b0 + 256 * b1 + 65536 * b2 + 16777216 * b3) :: toWords rest
  | _ => []

/-- MD5 padding: append `0x80`, zero-pad to 56 mod 64 bytes, then the
little-endian 64-bit bit length. -/
def md5pad (msg : List ℕ) : List ℕ :=
  msg ++ [128] ++ List.replicate ((119 - msg.length % 64) % 64) 0
      ++ leBytes 8 (8 * msg.length % 2 ^ 64)

/-- Fold `md5block` over consecutive 64-byte blocks; the first argument
bounds the number of blocks (structural recursion; each step consumes 64
bytes, so any fuel of at least `bytes.length` is enough). -/
def md5blocksAux : ℕ → ℕ × ℕ × ℕ × ℕ → List ℕ → ℕ × ℕ × ℕ × ℕ
  | 0, st, _ => st
  | n + 1, st, bytes =>
    if bytes = [] then st
    else md5blocksAux n (md5block st (toWords (bytes.take 64))) (bytes.drop 64)

/-- Fold `md5block` over all consecutive 64-byte blocks. -/
def md5blocks (st : ℕ × ℕ × ℕ × ℕ) (bytes : List ℕ) : ℕ × ℕ × ℕ × ℕ :=
  md5blocksAux bytes.length st bytes

/-- Lower-case hex digit. -/
def hexChar (n : ℕ) : Char := if n < 10 then Char.ofNat (48 + n) else Char.ofNat (87 + n)

/-- Two hex digits of a byte. -/
def byteHex (b : ℕ) : List Char := [hexChar (b / 16), hexChar (b % 16)]

/-- `hashlib.md5(bytes).hexdigest()` over a byte list. -/
def md5hexBytes (msg : List ℕ) : String :=
  let r := md5blocks (0x67452301, 0xefcdab89, 0x98badcfe, 0x10325476) (md5pad msg)
  String.mk (((leBytes 4 r.1 ++ leBytes 4 r.2.1 ++ leBytes 4 r.2.2.1
              ++ leBytes 4 r.2.2.2).map byteHex).flatten)

/-- `hashlib.md5(s.encode()).hexdigest()` for an ASCII string. -/
def md5hex (s : String) : String := md5hexBytes (s.data.map Char.toNat)

/-! ### Documents and metadata (`DocumentProcessor`) -/

/-- The `DocumentInfo` record of `models.py`. -/
structure DocRec where
  doc_id : String
  title : String
  file_path : String
  added_date : String
  chunk_count : ℕ
  file_size : Option ℕ
  doc_type : Option String
deriving DecidableEq, Repr

/-- The persisted metadata record `{documents, chunks}`; documents is a dict
keyed by `doc_id`, modelled as an association list with distinct keys. -/
structure Metadata where
  documents : List (String × DocRec)
  chunks : List ChunkRec
deriving DecidableEq, Repr

/-- `DocumentProcessor._process_single_document(file_path, title)` given the
extracted text `content`.  `none` models `return False` (empty extracted
content, or — under the fuel model — a chunking loop that never returns).
The `doc_id` is `hashlib.md5(str(file_path).encode()).hexdigest()`, and
`added_date`/`file_size` come from `stat`, passed here as `mtime`/the
content length. -/
def process_single_document (fuel : ℕ) (filePath : String) (content : List Char)
    (title : Option String) (mtime : String) (chunk_size overlap : ℕ) :
    Option (DocRec × List ChunkRec) :=
  if strip content = [] then none
  else
    let docId := md5hex filePath
    match chunk_document fuel content docId chunk_size overlap with
    | none => none
    | some chunks =>
        some ({ doc_id := docId, title := title.getD filePath,
                file_path := filePath, added_date := mtime,
                chunk_count := chunks.length,
                file_size := some content.length, doc_type := none }, chunks)

/-- `DocumentProcessor.remove_document(doc_id)`: the pair of the returned
boolean and the metadata file afterwards (`none` = no metadata file). -/
def remove_document (store : Option Metadata) (docId : String) :
    Bool × Option Metadata :=
  match store with
  | none => (false, none)
  | some md =>
    if (md.documents.lookup docId).isSome then
      (true, some { documents := md.documents.filter (fun p => p.1 ≠ docId),
                    chunks := md.chunks.filter (fun ch => ch.doc_id ≠ docId) })
    else (false, some md)

/-! ### Vector search (`SearchEngine._vector_search`, faiss `IndexFlatL2`) -/

/-- Squared L2 distance between two vectors (faiss returns squared
distances); vectors in one index share a dimension. -/
def sqDist (u v : List ℚ) : ℚ := ((u.zip v).map (fun p => (p.1 - p.2) ^ 2)).sum

/-- The embedding loop of `rebuild_index`: one embedding per chunk, appended
in chunk order (`embeddings.append(...)` then `np.vstack`). -/
def rebuild_rows (f : List Char → List ℚ) (chunks : List ChunkRec) :
    List (List ℚ) :=
  chunks.foldl (fun acc ch => acc ++ [f ch.text]) []

/-- Index (from `i` upward) and distance of the nearest row to `q`, earliest
row winning ties — the top-1 answer of an exact flat L2 index. -/
def argminAux (q : List ℚ) : List (List ℚ) → ℕ → Option (ℕ × ℚ)
  | [], _ => none
  | r :: rs, i =>
    match argminAux q rs (i + 1) with
    | none => some (i, sqDist r q)
    | some jd => if sqDist r q ≤ jd.2 then some (i, sqDist r q) else some jd

/-- The index of the top vector-search match for query embedding `q`. -/
def vectorTop (rows : List (List ℚ)) (q : List ℚ) : Option ℕ :=
  (argminAux q rows 0).map Prod.fst

/-! ### Index rebuild (`SearchEngine.rebuild_index`) -/

/-- Request one embedding per chunk in order; `none` as soon as the provider
fails (the exception propagates out of the loop). -/
def embedAll (g : List Char → Option (List ℚ)) :
    List ChunkRec → Option (List (List ℚ))
  | [] => some []
  | ch :: rest =>
    match g ch.text with
    | none => none
    | some v =>
      match embedAll g rest with
      | none => none
      | some vs => some (v :: vs)

/-- `SearchEngine.rebuild_index()`: given the embedding oracle `g`, the
metadata file and the current index file, return the success boolean and the
index file afterwards.  `faiss.write_index` runs only after the embedding
loop finished; every failure path returns `False` from inside `except`
without reaching the write. -/
def rebuild_index (g : List Char → Option (List ℚ)) (metadataFile : Option Metadata)
    (indexFile : Option (List (List ℚ))) : Bool × Option (List (List ℚ)) :=
  match metadataFile with
  | none => (false, indexFile)
  | some md =>
    if md.chunks = [] then (false, indexFile)
    else
      match embedAll g md.chunks with
      | none => (false, indexFile)
      | some rows => (true, some rows)

/-! ### Hybrid search (`SearchEngine.search`) -/

/-- A hydrated search result (the `SearchResult` model). -/
structure SearchResultRec where
  text : List Char
  source : String
  score : ℚ
  chunk_id : Option String
  res_doc_id : String
deriving DecidableEq, Repr

/-- Result hydration: `for idx, score in combined_results[:top_k]`, keeping
indices inside the chunk list and resolving the source title from the
documents map (fallback `"Unknown Document"`). -/
def hydrate (m : Metadata) (combined : List (ℕ × ℚ)) (top_k : ℕ) :
    List SearchResultRec :=
  (combined.take top_k).filterMap (fun p =>
    if p.1 < m.chunks.length then
      let ch := m.chunks.getD p.1 dummyChunk
      some { text := ch.text,
             source := match m.documents.lookup ch.doc_id with
                       | some d => d.title
                       | none => "Unknown Document",
             score := p.2, chunk_id := some ch.id, res_doc_id := ch.doc_id }
    else none)

/-- `SearchEngine.search(query, top_k)` given the outputs of the two
retrieval channels (`_bm25_search` on the expanded query and
`_vector_search`; both swallow their own exceptions and return `[]` on
failure, so the channels are total inputs here). -/
def search (md : Option Metadata) (bm25_results vector_results : List (ℕ × ℚ))
    (top_k : ℕ) : List SearchResultRec :=
  match md with
  | none => []
  | some m =>
    if m.chunks = [] then []
    else if bm25_results ≠ [] ∧ vector_results ≠ [] then
      hydrate m (reciprocal_rank_fusion bm25_results vector_results 60) top_k
    else if bm25_results ≠ [] then hydrate m bm25_results top_k
    else if vector_results ≠ [] then hydrate m vector_results top_k
    else []

/-! ### BM25 (`SearchEngine._bm25_search`) -/

/-- A character matched by `\w` (ASCII): alphanumeric or underscore. -/
def isWordChar (c : Char) : Bool := c.isAlphanum || c = '_'

/-- Tokenizer worker: split into maximal `\w` runs, case-folded, carrying
the (reversed) run collected so far. -/
def tokensAux : List Char → List Char → List (List Char)
  | [], acc => if acc = [] then [] else [acc.reverse]
  | c :: rest, acc =>
    if isWordChar c.toLower then tokensAux rest (c.toLower :: acc)
    else if acc = [] then tokensAux rest []
    else acc.reverse :: tokensAux rest []

/-- `re.findall(r'\b\w+\b', text.lower())` for ASCII text: the maximal
word-character runs of the lower-cased text. -/
def wordTokens (s : List Char) : List (List Char) := tokensAux s []

/-- BM25 `k1 = 1.5`. -/
def bm25_k1 : ℚ := 3 / 2

/-- BM25 `b = 0.75`. -/
def bm25_b : ℚ := 3 / 4

/-- The document-frequency table entry for `term`: the code iterates over
all chunks and over every occurrence of `term` in the query term list, so a
term duplicated in the query is counted once per duplicate. -/
def docFreq (chunkTokens : List (List (List Char)))
    (queryTerms : List (List Char)) (term : List Char) : ℕ :=
  queryTerms.count term * (chunkTokens.filter (fun c => term ∈ c)).length

/-- `avg_doc_len = sum(len(tokens(c)) for c in chunks) / total_docs`
(recomputed, with the same value, on every loop iteration). -/
def avgDocLen (chunkTokens : List (List (List Char))) : ℚ :=
  (((chunkTokens.map List.length).sum : ℕ) : ℚ) / ((chunkTokens.length : ℕ) : ℚ)

/-- The term-frequency factor `tf·(k1+1) / (tf + k1·(1 − b + b·dl/avgdl))`. -/
def tfFactor (tf dl : ℕ) (avg : ℚ) : ℚ :=
  ((tf : ℚ) * (bm25_k1 + 1)) /
    ((tf : ℚ) + bm25_k1 * (1 - bm25_b + bm25_b * (dl : ℚ) / avg))

/-- The idf argument `(N − df + 0.5)/(df + 0.5)` (the subtraction is over
`ℚ`, matching Python ints). -/
def idfArg (n df : ℕ) : ℚ := ((n : ℚ) - (df : ℚ) + 1 / 2) / ((df : ℚ) + 1 / 2)

/-- The BM25 score of chunk `i` over tokenized chunks: 0 when the chunk has
no tokens, else the sum over query-term occurrences with positive term
frequency of `idf · tfFactor`.  `math.log` is `Real.log`; Python raises on a
nonpositive idf argument (the exception is swallowed by `search`), while
`Real.log` returns the junk value 0 there — all claims below stay in the
positive-argument regime. -/
noncomputable def bm25ScoreTokens (chunkTokens : List (List (List Char)))
    (queryTerms : List (List Char)) (i : ℕ) : ℝ :=
  let ch := chunkTokens.getD i []
  let dl := ch.length
  if dl = 0 then 0
  else
    (queryTerms.map (fun term =>
      let tf := ch.count term
      if 0 < tf then
        Real.log ((idfArg chunkTokens.length (docFreq chunkTokens queryTerms term) : ℚ) : ℝ)
          * ((tfFactor tf dl (avgDocLen chunkTokens) : ℚ) : ℝ)
      else 0)).sum

/-- The BM25 score of chunk `i` for a query, over raw chunk texts. -/
noncomputable def bm25Score (chunks : List (List Char)) (query : List Char)
    (i : ℕ) : ℝ :=
  bm25ScoreTokens (chunks.map wordTokens) (wordTokens query) i

/-! ### Concrete data used by witnesses and counterexamples -/

/-- A concrete document record. -/
def docRecEx : DocRec := ⟨"d1", "Title", "documents/a.txt", "m", 2, none, none⟩

/-- A chunk of document `d1`. -/
def chunkEx1 : ChunkRec := ⟨"d1_0", "d1", 0, ['a'], 0, 1⟩

/-- A chunk of document `d2`. -/
def chunkEx2 : ChunkRec := ⟨"d2_0", "d2", 0, ['b'], 0, 1⟩

/-- A concrete metadata store with one document and two chunks. -/
def mdEx : Metadata := ⟨[("d1", docRecEx)], [chunkEx1, chunkEx2]⟩

/-- The length-based embedding used by the concrete vector-search
scenarios. -/
def fLen : List Char → List ℚ := fun t => [(t.length : ℚ)]

/-- Two chunks with identical text (hence identical embeddings). -/
def dupChunks : List ChunkRec :=
  [⟨"d_0", "d", 0, ['h', 'i'], 0, 2⟩, ⟨"d_1", "d", 1, ['h', 'i'], 0, 2⟩]

/-- Two chunks with distinct texts of distinct lengths. -/
def chunksDistinct : List ChunkRec :=
  [⟨"d_0", "d", 0, ['a'], 0, 1⟩, ⟨"d_1", "d", 1, ['b', 'b'], 0, 2⟩]

/-! ### Lemmas about fusion -/

lemma snd_mem_of_mem_enumFrom {α : Type*} :
    ∀ {l : List α} {n : ℕ} {p : ℕ × α}, p ∈ l.enumFrom n → p.2 ∈ l := by
  intro l
  induction l with
  | nil => intro n p h; simp [List.enumFrom] at h
  | cons a t ih =>
    intro n p h
    simp only [List.enumFrom, List.mem_cons] at h
    rcases h with rfl | h
    · simp
    · exact List.mem_cons_of_mem a (ih h)

lemma dictRanks_eq_none {l : List ℕ} {idx : ℕ} (h : idx ∉ l) :
    dictRanks l idx = none := by
  have hfil : (l.enum.filter (fun p => p.2 == idx)) = [] := by
    rw [List.filter_eq_nil_iff]
    intro p hp hbeq
    have h2 : p.2 = idx := by simpa using hbeq
    exact h (h2 ▸ snd_mem_of_mem_enumFrom hp)
  simp [dictRanks, hfil]

lemma rankUsed_of_not_mem {l : List ℕ} {idx : ℕ} (h : idx ∉ l) :
    rankUsed l idx = l.length + 1 := by
  simp [rankUsed, dictRanks_eq_none h]

lemma mem_insertAsc {x y : ℕ} {l : List ℕ} :
    y ∈ insertAsc x l ↔ y = x ∨ y ∈ l := by
  induction l with
  | nil => simp [insertAsc]
  | cons a t ih =>
    by_cases hxa : x ≤ a <;> (simp [insertAsc, hxa, ih]; all_goals tauto)

lemma mem_sortAsc {x : ℕ} {l : List ℕ} : x ∈ sortAsc l ↔ x ∈ l := by
  induction l with
  | nil => simp [sortAsc]
  | cons a t ih =>
    show x ∈ insertAsc a (sortAsc t) ↔ _
    rw [mem_insertAsc]
    simp [ih]

lemma mem_insertScoreDesc {p q : ℕ × ℚ} {l : List (ℕ × ℚ)} :
    q ∈ insertScoreDesc p l ↔ q = p ∨ q ∈ l := by
  induction l with
  | nil => simp [insertScoreDesc]
  | cons a t ih =>
    by_cases hpa : p.2 < a.2 <;> (simp [insertScoreDesc, hpa, ih]; all_goals tauto)

lemma mem_sortScoresDesc {q : ℕ × ℚ} {l : List (ℕ × ℚ)} :
    q ∈ sortScoresDesc l ↔ q ∈ l := by
  induction l with
  | nil => simp [sortScoresDesc]
  | cons a t ih =>
    show q ∈ insertScoreDesc a (sortScoresDesc t) ↔ _
    rw [mem_insertScoreDesc]
    simp [ih]

/-- Claim C3 (amended): for a chunk index present in the lexical list and
absent from the vector list, the rank used on the vector side is
`len(vector_results) + 1` — the length of the list the index is missing
from, plus one — and the index is never excluded from the fused output.
The symmetric statement for the other side holds by the same argument. -/
theorem rrf_missing_rank (bm vec : List (ℕ × ℚ)) (k idx : ℕ)
    (hb : idx ∈ bm.map Prod.fst) (hv : idx ∉ vec.map Prod.fst) :
    (idx, (1 : ℚ) / ((k + rankUsed (bm.map Prod.fst) idx : ℕ) : ℚ)
        + (1 : ℚ) / ((k + (vec.length + 1) : ℕ) : ℚ))
      ∈ reciprocal_rank_fusion bm vec k := by
  unfold reciprocal_rank_fusion
  rw [mem_sortScoresDesc]
  have hmem : idx ∈ sortAsc ((bm.map Prod.fst ++ vec.map Prod.fst).dedup) := by
    rw [mem_sortAsc, List.mem_dedup, List.mem_append]
    exact Or.inl hb
  have := List.mem_map_of_mem (fun i =>
    (i, (1 : ℚ) / ((k + rankUsed (bm.map Prod.fst) i : ℕ) : ℚ)
      + (1 : ℚ) / ((k + rankUsed (vec.map Prod.fst) i : ℕ) : ℚ))) hmem
  simpa [rankUsed_of_not_mem hv] using this

/-- Witness for `rrf_missing_rank` at a concrete input: index 5 appears only
in the one-element lexical list, so its vector-side rank is `2 + 1`. -/
theorem rrf_missing_rank_witness :
    ((5 : ℕ), (1 : ℚ) / ((60 + rankUsed ([(5, 1)].map Prod.fst) 5 : ℕ) : ℚ)
        + (1 : ℚ) / ((60 + (2 + 1) : ℕ) : ℚ))
      ∈ reciprocal_rank_fusion [(5, 1)] [(7, 1), (9, 1)] 60 :=
  rrf_missing_rank [(5, 1)] [(7, 1), (9, 1)] 60 5 (by decide) (by decide)

/-- Claim C3 (counterexample): with lexical list `[0]` and vector list
`[1, 2]`, the fused score of index 0 is `1/61 + 1/63` — the vector-side rank
used is `len(vector_results) + 1 = 3`, not `len(lexical) + 1 = 2` as the
claim's reading (`1/61 + 1/62`) would give. -/
theorem rrf_missing_rank_counterexample :
    ((reciprocal_rank_fusion [(0, 1)] [(1, 1), (2, 1)] 60).filter
        (fun p => p.1 == 0)).map Prod.snd = [1 / 61 + 1 / 63]
    ∧ (1 / 61 + 1 / 63 : ℚ) ≠ 1 / 61 + 1 / 62 := by
  constructor
  · norm_num [reciprocal_rank_fusion, rankUsed, dictRanks, sortAsc, insertAsc,
      sortScoresDesc, insertScoreDesc, List.dedup, List.pwFilter, List.enum,
      List.enumFrom, List.getLast?]
  · norm_num

/-- Claim C2 (amended): on lexical ranking `[A,B,C]` and vector ranking
`[B,A,D]` (indices 0,1,2,3) with `k_rrf = 60`, the fused scores are
`score(A) = score(B) = 1/61 + 1/62` and `score(C) = score(D) = 1/63 + 1/64`,
and the fused order is `A, B, C, D`: the two ties are broken by the
candidate-set iteration order (ascending index), not by first-list order. -/
theorem rrf_worked_example :
    reciprocal_rank_fusion [(0, 1), (1, 1), (2, 1)] [(1, 1), (0, 1), (3, 1)] 60
      = [(0, 1 / 61 + 1 / 62), (1, 1 / 61 + 1 / 62),
         (2, 1 / 63 + 1 / 64), (3, 1 / 63 + 1 / 64)] := by
  norm_num [reciprocal_rank_fusion, rankUsed, dictRanks, sortAsc, insertAsc,
    sortScoresDesc, insertScoreDesc, List.dedup, List.pwFilter, List.enum,
    List.enumFrom, List.getLast?]

/-- Claim C2 (counterexample): on the worked example's input the fused order
is `A, B, C, D` (`[0, 1, 2, 3]`), not the claimed `A, B, D, C`
(`[0, 1, 3, 2]`): the spec's arithmetic for the example is wrong
(e.g. `score(B)` is `1/62 + 1/61`, not `1/62 + 1/60`). -/
theorem rrf_worked_example_counterexample :
    (reciprocal_rank_fusion [(0, 1), (1, 1), (2, 1)] [(1, 1), (0, 1), (3, 1)] 60).map
        Prod.fst = [0, 1, 2, 3]
    ∧ ([0, 1, 2, 3] : List ℕ) ≠ [0, 1, 3, 2]
    ∧ ((1 : ℚ) / 62 + 1 / 61 ≠ 1 / 62 + 1 / 60) := by
  refine ⟨?_, by decide, by norm_num⟩
  norm_num [reciprocal_rank_fusion, rankUsed, dictRanks, sortAsc, insertAsc,
    sortScoresDesc, insertScoreDesc, List.dedup, List.pwFilter, List.enum,
    List.enumFrom, List.getLast?]

/-! ### Lemmas about chunking -/

lemma findSentenceEndAux_bounds {content : List Char} :
    ∀ {n i se : ℕ}, findSentenceEndAux content n i = some se →
      i + 2 ≤ se + n ∧ se ≤ i + 1 := by
  intro n
  induction n with
  | zero => intro i se h; simp [findSentenceEndAux] at h
  | succ m ih =>
    intro i se h
    rw [findSentenceEndAux] at h
    by_cases hc : isSentenceChar (content.getD i ' ')
    · rw [if_pos hc] at h
      cases h
      omega
    · rw [if_neg hc] at h
      have := ih h
      omega

lemma findSentenceEnd_bounds {content : List Char} {e ss se : ℕ}
    (h : findSentenceEnd content e ss = some se) :
    ss + 2 ≤ se ∧ se ≤ e + 1 := by
  unfold findSentenceEnd at h
  have hb := findSentenceEndAux_bounds h
  by_cases hss : ss ≤ e
  · omega
  · exfalso
    have : e - ss = 0 := by omega
    rw [this] at h
    simp [findSentenceEndAux] at h

/-- When `overlap + 100 ≤ chunk_size`, the chunk end is at least
`start + overlap + 2`: the sentence snap can pull the raw cut back by at
most 98 characters. -/
lemma chunkEnd_ge (content : List Char) (cs ov start : ℕ) (h : ov + 100 ≤ cs) :
    start + ov + 2 ≤ chunkEnd content cs start := by
  unfold chunkEnd
  by_cases h0 : start + cs < content.length
  · rw [if_pos h0]
    rcases hfse : findSentenceEnd content (start + cs) (max start (start + cs - 100))
      with _ | se
    · show start + ov + 2 ≤ start + cs
      omega
    · show start + ov + 2 ≤ se
      have hb := findSentenceEnd_bounds hfse
      have hm : start + cs - 100 ≤ max start (start + cs - 100) :=
        Nat.le_max_right _ _
      omega
  · rw [if_neg h0]
    show start + ov + 2 ≤ start + cs
    omega

/-- When `overlap + 100 ≤ chunk_size`, fuel `content.length - start + 1`
suffices for the chunk loop to return. -/
lemma chunkLoop_isSome (content : List Char) (docId : String) (cs ov : ℕ)
    (h : ov + 100 ≤ cs) :
    ∀ fuel start cid, content.length < fuel + start + 1 →
      (chunkLoop content docId cs ov fuel start cid).isSome := by
  intro fuel
  induction fuel with
  | zero =>
    intro start cid hlt
    have hns : ¬ start < content.length := by omega
    simp [chunkLoop, hns]
  | succ n ih =>
    intro start cid hlt
    by_cases hs : start < content.length
    · rw [chunkLoop, if_pos hs]
      have hrec : (chunkLoop content docId cs ov n
          (chunkNextStart content ov (chunkEnd content cs start))
          (if strip (slice content start (chunkEnd content cs start)) = []
           then cid else cid + 1)).isSome := by
        apply ih
        have hge := chunkEnd_ge content cs ov start h
        unfold chunkNextStart
        by_cases he : chunkEnd content cs start < content.length
        · rw [if_pos he]; omega
        · rw [if_neg he]; omega
      rcases Option.isSome_iff_exists.mp hrec with ⟨rest, hrest⟩
      simp [hrest]
    · rw [chunkLoop, if_neg hs]
      simp

/-- Claim C10: the chunking loop terminates for every content string
whenever `chunk_size ≥ overlap + 100`: fuel `content.length + 1` is enough
for `_chunk_document` to return, because each iteration either leaves the
content or advances the window start (the sentence-boundary snap pulls the
chunk end back by fewer than 100 characters). -/
theorem chunk_document_terminates (content : List Char) (docId : String)
    (cs ov : ℕ) (h : ov + 100 ≤ cs) :
    (chunk_document (content.length + 1) content docId cs ov).isSome :=
  chunkLoop_isSome content docId cs ov h (content.length + 1) 0 0 (by omega)

/-- Witness for `chunk_document_terminates` at a concrete input. -/
theorem chunk_document_terminates_witness :
    0 + 100 ≤ 100 ∧
      (chunk_document ("hi there. ok".data.length + 1) "hi there. ok".data
        "d" 100 0).isSome :=
  ⟨by decide, chunk_document_terminates "hi there. ok".data "d" 100 0 (by decide)⟩

/-- Claim C4 (divergence evaluation): with `chunk_size = 1` and
`overlap = 1` on the three-character content `"ab."`, the chunking loop
returns for no amount of fuel — the Python `while` loop runs forever
(re-emitting the chunk `"a"` with `start` stuck at 0) instead of failing
fast.  The empty-content half of the claim does hold, upstream:
`_process_single_document` returns a failure when the stripped content is
empty (second conjunct). -/
theorem chunking_no_failfast :
    (∀ fuel cid, chunkLoop ['a', 'b', '.'] "d" 1 1 fuel 0 cid = none)
    ∧ (∀ fuel cs ov t mt,
        process_single_document fuel "p" [' ', ' '] t mt cs ov = none) := by
  constructor
  · intro fuel
    induction fuel with
    | zero => intro cid; rfl
    | succ n ih =>
      intro cid
      rw [chunkLoop]
      have h1 : chunkEnd ['a', 'b', '.'] 1 0 = 1 := by decide
      have h2 : strip (slice ['a', 'b', '.'] 0 1) = ['a'] := by decide
      have h3 : chunkNextStart ['a', 'b', '.'] 1 1 = 0 := by decide
      simp only [List.length_cons, List.length_nil, h1, h2, h3]
      rw [if_pos (by omega)]
      simp [ih]
  · intro fuel cs ov t mt
    rw [process_single_document]
    rw [if_pos (by decide)]

/-! ### Document identity (`doc_id`) -/

lemma process_doc_id (fuel : ℕ) (p : String) (c : List Char) (t : Option String)
    (mt : String) (cs ov : ℕ) :
    (process_single_document fuel p c t mt cs ov).map (fun r => r.1.doc_id) = none
    ∨ (process_single_document fuel p c t mt cs ov).map (fun r => r.1.doc_id)
        = some (md5hex p) := by
  unfold process_single_document
  by_cases hS : strip c = []
  · left; rw [if_pos hS]; rfl
  · rw [if_neg hS]
    cases hc : chunk_document fuel c (md5hex p) cs ov with
    | none => left; simp [hc]
    | some chunks => right; simp [hc]

/-- Claim C8 (amended): the `doc_id` is the MD5 hex digest of the file path
string, so it is determined by the path alone — two ingests at the same path
yield the same `doc_id` whatever their contents, titles, or chunking
configuration (whenever both ingests succeed). -/
theorem doc_id_path_determined (fuel fuel' : ℕ) (p : String) (c c' : List Char)
    (t t' : Option String) (mt mt' : String) (cs ov cs' ov' : ℕ) :
    (process_single_document fuel p c t mt cs ov).map (fun r => r.1.doc_id) = none
    ∨ (process_single_document fuel' p c' t' mt' cs' ov').map (fun r => r.1.doc_id) = none
    ∨ (process_single_document fuel p c t mt cs ov).map (fun r => r.1.doc_id)
        = (process_single_document fuel' p c' t' mt' cs' ov').map (fun r => r.1.doc_id) := by
  rcases process_doc_id fuel p c t mt cs ov with h1 | h1
  · exact Or.inl h1
  · rcases process_doc_id fuel' p c' t' mt' cs' ov' with h2 | h2
    · exact Or.inr (Or.inl h2)
    · exact Or.inr (Or.inr (h1.trans h2.symm))

/-- Claim C8 (counterexample): ingesting the very same content at two
different storage paths yields two different `doc_id`s — the hash is taken
over the file path, not the content — refuting "equal content yields equal
doc_id regardless of where the file is stored". -/
theorem doc_id_counterexample :
    (process_single_document 2 "documents/a.txt" "same content".data none "t0"
        1000 200).map (fun r => r.1.doc_id)
      ≠ (process_single_document 2 "documents/b.txt" "same content".data none "t0"
        1000 200).map (fun r => r.1.doc_id)
    ∧ (process_single_document 2 "documents/a.txt" "same content".data none "t0"
        1000 200).isSome
    ∧ (process_single_document 2 "documents/b.txt" "same content".data none "t0"
        1000 200).isSome := by
  refine ⟨by decide, by decide, by decide⟩

/-! ### Document removal (`DocumentProcessor.remove_document`) -/

lemma lookup_filter_ne (l : List (String × DocRec)) (k : String) :
    (l.filter (fun p => p.1 ≠ k)).lookup k = none := by
  induction l with
  | nil => rfl
  | cons a t ih =>
    by_cases hk : a.1 = k
    · simpa [List.filter_cons, hk] using ih
    · have hbeq : (k == a.1) = false := beq_eq_false_iff_ne.mpr (fun h => hk h.symm)
      have hpa : (decide (a.1 ≠ k)) = true := by simpa using hk
      simp only [List.filter_cons, hpa, if_true, List.lookup, hbeq]
      simpa using ih

/-- Claim C7: `remove_document` cascades — when `doc_id` is known it returns
`true` and afterwards the store holds no chunk with that `doc_id` and no
document entry for it; when `doc_id` is unknown it returns `false` and the
store is unchanged (and no exception is modelled: the function is total). -/
theorem remove_document_spec (md : Metadata) (docId : String) :
    ((md.documents.lookup docId).isSome →
      (remove_document (some md) docId).1 = true
      ∧ ∀ st, (remove_document (some md) docId).2 = some st →
          (∀ ch ∈ st.chunks, ch.doc_id ≠ docId)
          ∧ st.documents.lookup docId = none)
    ∧ (¬ (md.documents.lookup docId).isSome →
        remove_document (some md) docId = (false, some md)) := by
  constructor
  · intro hk
    have hres : remove_document (some md) docId
        = (true, some ⟨md.documents.filter (fun p => p.1 ≠ docId),
                       md.chunks.filter (fun ch => ch.doc_id ≠ docId)⟩) := by
      simp [remove_document, hk]
    rw [hres]
    refine ⟨rfl, ?_⟩
    intro st hst
    injection hst with h
    subst h
    constructor
    · intro ch hch
      have := (List.mem_filter.mp hch).2
      simpa using this
    · exact lookup_filter_ne md.documents docId
  · intro hk
    have hkf : (md.documents.lookup docId).isSome = false :=
      Bool.eq_false_iff.mpr hk
    simp [remove_document, hkf]

/-- Witness for `remove_document_spec`: removing the known `d1` returns
`true`; removing the unknown `zz` returns `false` and leaves the store as
it was. -/
theorem remove_document_spec_witness :
    (remove_document (some mdEx) "d1").1 = true
    ∧ remove_document (some mdEx) "zz" = (false, some mdEx) :=
  ⟨((remove_document_spec mdEx "d1").1 (by decide)).1,
    (remove_document_spec mdEx "zz").2 (by decide)⟩

/-! ### Index rebuild atomicity -/

lemma embedAll_isSome {g : List Char → Option (List ℚ)} :
    ∀ {chunks : List ChunkRec} {rows : List (List ℚ)},
      embedAll g chunks = some rows → ∀ ch ∈ chunks, (g ch.text).isSome := by
  intro chunks
  induction chunks with
  | nil => intro rows _ ch hch; simp at hch
  | cons a t ih =>
    intro rows h ch hch
    rw [embedAll] at h
    cases hg : g a.text with
    | none => rw [hg] at h; exact absurd h (by simp)
    | some v =>
      rw [hg] at h
      cases hrest : embedAll g t with
      | none => rw [hrest] at h; exact absurd h (by simp)
      | some vs =>
        rcases List.mem_cons.mp hch with rfl | hmem
        · simp [hg]
        · exact ih hrest ch hmem

/-- Claim C9: `rebuild_index` is atomic with respect to the index file —
whenever it returns `False` (missing metadata, empty chunk list, or an
embedding-provider failure) the previously persisted index file is
unchanged, and it returns `True` only when every chunk's embedding was
obtained. -/
theorem rebuild_index_atomic (g : List Char → Option (List ℚ))
    (mdf : Option Metadata) (idxf : Option (List (List ℚ))) :
    ((rebuild_index g mdf idxf).1 = false → (rebuild_index g mdf idxf).2 = idxf)
    ∧ (∀ m, mdf = some m → (rebuild_index g mdf idxf).1 = true →
        ∀ ch ∈ m.chunks, (g ch.text).isSome) := by
  cases mdf with
  | none => exact ⟨fun _ => rfl, fun m hm => by cases hm⟩
  | some m =>
    by_cases hc : m.chunks = []
    · refine ⟨fun _ => ?_, fun m' hm' htrue => ?_⟩
      · simp [rebuild_index, hc]
      · exfalso
        rw [rebuild_index.eq_def] at htrue
        simp [hc] at htrue
    · cases hE : embedAll g m.chunks with
      | none =>
        refine ⟨fun _ => ?_, fun m' hm' htrue => ?_⟩
        · simp [rebuild_index, hc, hE]
        · exfalso
          rw [rebuild_index.eq_def] at htrue
          simp [hc, hE] at htrue
      | some rows =>
        refine ⟨fun hfalse => ?_, fun m' hm' _ => ?_⟩
        · exfalso
          rw [rebuild_index.eq_def] at hfalse
          simp [hc, hE] at hfalse
        · cases hm'
          exact embedAll_isSome hE

/-- Witness for `rebuild_index_atomic`: an always-failing embedding provider
leaves the index file exactly as it was. -/
theorem rebuild_index_atomic_witness :
    (rebuild_index (fun _ => none) (some mdEx) (some [[]])).2 = some [[]] :=
  (rebuild_index_atomic (fun _ => none) (some mdEx) (some [[]])).1 rfl

/-! ### Search on an empty corpus / with empty channels -/

/-- Claim C6: `search` returns the empty list — and, being a total function,
raises nothing — when there is no metadata, when the chunk list is empty
(empty corpus), and when both retrieval channels return no candidates. -/
theorem search_empty_graceful (md : Option Metadata) (bm vec : List (ℕ × ℚ))
    (tk : ℕ) :
    (md = none → search md bm vec tk = [])
    ∧ (∀ m, md = some m → m.chunks = [] → search md bm vec tk = [])
    ∧ (bm = [] → vec = [] → search md bm vec tk = []) := by
  refine ⟨?_, ?_, ?_⟩
  · rintro rfl; rfl
  · rintro m rfl hm
    simp [search, hm]
  · rintro rfl rfl
    cases md with
    | none => rfl
    | some m => by_cases hm : m.chunks = [] <;> simp [search, hm]

/-- Witness for `search_empty_graceful` on a freshly initialized empty
store. -/
theorem search_empty_graceful_witness :
    search (some ⟨[], []⟩) [] [] 5 = [] :=
  (search_empty_graceful (some ⟨[], []⟩) [] [] 5).2.1 ⟨[], []⟩ rfl rfl

/-! ### Index alignment and the vector channel -/

lemma rebuild_rows_eq_map (f : List Char → List ℚ) (chunks : List ChunkRec) :
    rebuild_rows f chunks = chunks.map (fun ch => f ch.text) := by
  have haux : ∀ (l : List ChunkRec) (acc : List (List ℚ)),
      l.foldl (fun acc ch => acc ++ [f ch.text]) acc
        = acc ++ l.map (fun ch => f ch.text) := by
    intro l
    induction l with
    | nil => intro acc; simp
    | cons a t ih => intro acc; simp [ih, List.append_assoc]
  simpa using haux chunks []

lemma getD_map_ofChunks (g : ChunkRec → List ℚ) :
    ∀ (l : List ChunkRec) (m : ℕ), m < l.length →
      (l.map g).getD m [] = g (l.getD m dummyChunk) := by
  intro l
  induction l with
  | nil => intro m hm; simp at hm
  | cons a t ih =>
    intro m hm
    cases m with
    | zero => rfl
    | succ m' => simpa using ih m' (by simpa using hm)

lemma sqDist_nonneg (u v : List ℚ) : 0 ≤ sqDist u v := by
  apply List.sum_nonneg
  intro x hx
  rcases List.mem_map.mp hx with ⟨p, _, rfl⟩
  positivity

lemma sqDist_self (v : List ℚ) : sqDist v v = 0 := by
  induction v with
  | nil => rfl
  | cons a t ih =>
    simp only [sqDist, List.zip_cons_cons, List.map_cons, List.sum_cons] at ih ⊢
    simp [ih]

lemma eq_of_sqDist_eq_zero :
    ∀ (u v : List ℚ), u.length = v.length → sqDist u v = 0 → u = v := by
  intro u
  induction u with
  | nil =>
    intro v hlen _
    exact (List.length_eq_zero.mp hlen.symm).symm ▸ rfl
  | cons a t ih =>
    intro v hlen h0
    cases v with
    | nil => simp at hlen
    | cons b s =>
      simp only [sqDist, List.zip_cons_cons, List.map_cons, List.sum_cons] at h0
      have h1 : 0 ≤ (a - b) ^ 2 := sq_nonneg _
      have h2 : 0 ≤ sqDist t s := sqDist_nonneg t s
      have hab : (a - b) ^ 2 = 0 := by
        have : sqDist t s = ((t.zip s).map (fun p => (p.1 - p.2) ^ 2)).sum := rfl
        rw [this] at h2
        linarith
      have hts : sqDist t s = 0 := by
        have : sqDist t s = ((t.zip s).map (fun p => (p.1 - p.2) ^ 2)).sum := rfl
        rw [this]
        linarith [sq_nonneg (a - b)]
      have hab' : a = b := by
        have := (pow_eq_zero_iff (by norm_num : (2 : ℕ) ≠ 0)).mp hab
        linarith [sub_eq_zero.mp this]
      have hlen' : t.length = s.length := by simpa using hlen
      rw [hab', ih s hlen' hts]

lemma sqDist_pos_of_ne (u v : List ℚ) (hlen : u.length = v.length) (hne : u ≠ v) :
    0 < sqDist u v :=
  lt_of_le_of_ne (sqDist_nonneg u v)
    (fun h0 => hne (eq_of_sqDist_eq_zero u v hlen h0.symm))

lemma argminAux_snd_nonneg {q : List ℚ} :
    ∀ {rs : List (List ℚ)} {i : ℕ} {jd : ℕ × ℚ},
      argminAux q rs i = some jd → 0 ≤ jd.2 := by
  intro rs
  induction rs with
  | nil => intro i jd h; simp [argminAux] at h
  | cons r rs' ih =>
    intro i jd h
    rw [argminAux] at h
    cases hrec : argminAux q rs' (i + 1) with
    | none =>
      rw [hrec] at h
      injection h with h
      subst h
      exact sqDist_nonneg r q
    | some jd' =>
      rw [hrec] at h
      dsimp only at h
      by_cases hle : sqDist r q ≤ jd'.2
      · rw [if_pos hle] at h
        injection h with h
        subst h
        exact sqDist_nonneg r q
      · rw [if_neg hle] at h
        injection h with h
        subst h
        exact ih hrec

lemma argminAux_first_zero (q : List ℚ) :
    ∀ (rs : List (List ℚ)) (n i : ℕ), n < rs.length →
      sqDist (rs.getD n []) q = 0 →
      (∀ m, m < n → 0 < sqDist (rs.getD m []) q) →
      argminAux q rs i = some (i + n, 0) := by
  intro rs
  induction rs with
  | nil => intro n i hn; simp at hn
  | cons r rs' ih =>
    intro n i hn h0 hpos
    cases n with
    | zero =>
      have hr : sqDist r q = 0 := by simpa using h0
      rw [argminAux]
      cases hrec : argminAux q rs' (i + 1) with
      | none => simp [hr]
      | some jd =>
        have hnn := argminAux_snd_nonneg hrec
        dsimp only
        rw [if_pos (by rw [hr]; exact hnn)]
        simp [hr]
    | succ n' =>
      have hr : 0 < sqDist r q := by simpa using hpos 0 (Nat.succ_pos n')
      have hrec : argminAux q rs' (i + 1) = some (i + 1 + n', 0) := by
        apply ih n' (i + 1) (by simp only [List.length_cons] at hn; omega)
          (by simpa using h0)
        intro m hm
        simpa using hpos (m + 1) (by omega)
      rw [argminAux, hrec]
      dsimp only
      rw [if_neg (by simp; linarith)]
      have heq : i + 1 + n' = i + (n' + 1) := by omega
      rw [heq]

/-- Claim C1 (amended): after `rebuild_index`, the `N`th row of the vector
index is the embedding of the `N`th chunk — embeddings are requested and
appended in chunk order — unconditionally; and querying the vector channel
with chunk `n`'s own text returns chunk `n` as the top match, provided no
earlier chunk has the same embedding (and all embeddings share one
dimension, as a faiss index enforces). -/
theorem index_alignment (f : List Char → List ℚ) (chunks : List ChunkRec)
    (n : ℕ) (hn : n < chunks.length)
    (hdist : ∀ m, m < n →
      f ((chunks.getD m dummyChunk).text) ≠ f ((chunks.getD n dummyChunk).text))
    (hdim : ∀ m, m < chunks.length →
      (f ((chunks.getD m dummyChunk).text)).length
        = (f ((chunks.getD n dummyChunk).text)).length) :
    (∀ m, m < chunks.length →
      (rebuild_rows f chunks).getD m [] = f ((chunks.getD m dummyChunk).text))
    ∧ vectorTop (rebuild_rows f chunks) (f ((chunks.getD n dummyChunk).text))
        = some n := by
  have halign : ∀ m, m < chunks.length →
      (rebuild_rows f chunks).getD m [] = f ((chunks.getD m dummyChunk).text) := by
    intro m hm
    rw [rebuild_rows_eq_map]
    exact getD_map_ofChunks (fun ch => f ch.text) chunks m hm
  refine ⟨halign, ?_⟩
  unfold vectorTop
  have hlen : (rebuild_rows f chunks).length = chunks.length := by
    rw [rebuild_rows_eq_map]; simp
  have hq : sqDist ((rebuild_rows f chunks).getD n [])
      (f ((chunks.getD n dummyChunk).text)) = 0 := by
    rw [halign n hn]
    exact sqDist_self _
  have hmin := argminAux_first_zero (f ((chunks.getD n dummyChunk).text))
    (rebuild_rows f chunks) n 0 (by omega) hq ?hpos
  · rw [hmin]; simp
  case hpos =>
    intro m hm
    rw [halign m (by omega)]
    exact sqDist_pos_of_ne _ _
      (by rw [hdim m (by omega), hdim n hn]) (hdist m hm)

/-- Claim C1 (counterexample): with two chunks holding the same text, the
vector channel queried with chunk 1's own text returns chunk 0, not chunk 1
— the claimed top-match property fails as soon as two chunks share an
embedding. -/
theorem index_alignment_counterexample :
    vectorTop (rebuild_rows fLen dupChunks)
        (fLen ((dupChunks.getD 1 dummyChunk).text)) = some 0
    ∧ some 0 ≠ some (1 : ℕ) := by
  constructor
  · norm_num [vectorTop, argminAux, rebuild_rows, fLen, dupChunks, dummyChunk,
      sqDist, List.foldl]
  · decide

/-- Witness for `index_alignment` on two chunks with distinct embeddings. -/
theorem index_alignment_witness :
    (∀ m, m < chunksDistinct.length →
      (rebuild_rows fLen chunksDistinct).getD m []
        = fLen ((chunksDistinct.getD m dummyChunk).text))
    ∧ vectorTop (rebuild_rows fLen chunksDistinct)
        (fLen ((chunksDistinct.getD 1 dummyChunk).text)) = some 1 :=
  index_alignment fLen chunksDistinct 1 (by decide)
    (by
      intro m hm
      have hm0 : m = 0 := by omega
      subst hm0
      simp [fLen, chunksDistinct, dummyChunk])
    (by
      intro m hm
      have hm01 : m = 0 ∨ m = 1 := by simp [chunksDistinct] at hm; omega
      rcases hm01 with rfl | rfl <;> rfl)

/-! ### BM25 lemmas -/

lemma getD_append_cons {α : Type*} (pre : List α) (x : α) (post : List α) (d : α) :
    (pre ++ x :: post).getD pre.length d = x := by
  induction pre with
  | nil => rfl
  | cons a t ih => simpa using ih

set_option maxHeartbeats 1000000 in
lemma tfFactor_le (tf dl S N : ℕ) (h1 : 1 ≤ tf) (h2 : tf ≤ dl) (h3 : dl ≤ S)
    (h4 : 1 ≤ N) :
    tfFactor tf dl ((S : ℚ) / N) ≤ tfFactor (tf + 1) (dl + 1) (((S : ℚ) + 1) / N) := by
  have hT : (1 : ℚ) ≤ (tf : ℚ) := by exact_mod_cast h1
  have hTD : (tf : ℚ) ≤ (dl : ℚ) := by exact_mod_cast h2
  have hDS : (dl : ℚ) ≤ (S : ℚ) := by exact_mod_cast h3
  have hN : (1 : ℚ) ≤ (N : ℚ) := by exact_mod_cast h4
  have hS : (1 : ℚ) ≤ (S : ℚ) := by linarith
  have hSpos : (0 : ℚ) < S := by linarith
  have hS1pos : (0 : ℚ) < (S : ℚ) + 1 := by linarith
  have hNpos : (0 : ℚ) < N := by linarith
  have hSne : (S : ℚ) ≠ 0 := ne_of_gt hSpos
  have hS1ne : (S : ℚ) + 1 ≠ 0 := ne_of_gt hS1pos
  have hNne : (N : ℚ) ≠ 0 := ne_of_gt hNpos
  unfold tfFactor bm25_k1 bm25_b
  push_cast
  have e1 : (tf : ℚ) + 3 / 2 * (1 - 3 / 4 + 3 / 4 * (dl : ℚ) / ((S : ℚ) / N))
      = (8 * tf * S + 3 * S + 9 * dl * N) / (8 * S) := by
    field_simp
    ring
  have e2 : (tf : ℚ) + 1 + 3 / 2 * (1 - 3 / 4 + 3 / 4 * ((dl : ℚ) + 1) / (((S : ℚ) + 1) / N))
      = (8 * (tf + 1) * (S + 1) + 3 * (S + 1) + 9 * (dl + 1) * N) / (8 * (S + 1)) := by
    field_simp
    ring
  rw [e1, e2, div_div_eq_mul_div, div_div_eq_mul_div]
  have hP1 : (0 : ℚ) < 8 * tf * S + 3 * S + 9 * dl * N := by
    nlinarith [mul_nonneg (by linarith : (0:ℚ) ≤ (dl : ℚ)) hNpos.le,
      mul_pos (by linarith : (0:ℚ) < (tf : ℚ)) hSpos]
  have hP2 : (0 : ℚ) < 8 * ((tf : ℚ) + 1) * (S + 1) + 3 * (S + 1) + 9 * ((dl : ℚ) + 1) * N := by
    nlinarith [mul_pos (by linarith : (0:ℚ) < (tf : ℚ) + 1) hS1pos,
      mul_pos (by linarith : (0:ℚ) < (dl : ℚ) + 1) hNpos]
  rw [div_le_div_iff₀ hP1 hP2]
  have hkey : (0 : ℚ) ≤ (dl : ℚ) * tf + dl + S * (dl - tf) := by
    nlinarith [mul_nonneg hSpos.le (sub_nonneg.mpr hTD),
      mul_nonneg (by linarith : (0:ℚ) ≤ (dl : ℚ)) (by linarith : (0:ℚ) ≤ (tf : ℚ))]
  have hid : ((tf:ℚ)+1)*(5/2)*(8*((S:ℚ)+1)) * (8*(tf:ℚ)*S + 3*S + 9*(dl:ℚ)*N)
      - (tf:ℚ)*(5/2)*(8*(S:ℚ)) * (8*((tf:ℚ)+1)*((S:ℚ)+1)+3*((S:ℚ)+1)+9*((dl:ℚ)+1)*N)
      = 60*((S:ℚ)*((S:ℚ)+1))
        + 180*((N:ℚ)*((dl:ℚ)*(tf:ℚ) + (dl:ℚ) + (S:ℚ)*((dl:ℚ) - (tf:ℚ)))) := by
    ring
  linarith [hid, mul_pos hSpos hS1pos, mul_nonneg hNpos.le hkey]

lemma idfArg_ge_one (n df : ℕ) (h : 2 * df ≤ n) : 1 ≤ idfArg n df := by
  unfold idfArg
  rw [one_le_div (by positivity : (0:ℚ) < (df : ℚ) + 1 / 2)]
  have hc : ((2 * df : ℕ) : ℚ) ≤ ((n : ℕ) : ℚ) := by exact_mod_cast h
  push_cast at hc
  linarith

lemma bm25ScoreTokens_single (chunkTokens : List (List (List Char)))
    (t : List Char) (i : ℕ)
    (hch : 0 < (chunkTokens.getD i []).count t) :
    bm25ScoreTokens chunkTokens [t] i
      = Real.log ((idfArg chunkTokens.length (docFreq chunkTokens [t] t) : ℚ) : ℝ)
        * ((tfFactor ((chunkTokens.getD i []).count t)
            (chunkTokens.getD i []).length (avgDocLen chunkTokens) : ℚ) : ℝ) := by
  have hdl : ¬ (chunkTokens.getD i []).length = 0 := by
    intro h0
    rw [List.length_eq_zero] at h0
    rw [h0] at hch
    simp at hch
  unfold bm25ScoreTokens
  rw [if_neg hdl]
  simp only [List.map_cons, List.map_nil, List.sum_cons, List.sum_nil, add_zero]
  rw [if_pos hch]

/-- Claim C5 (amended): for a single-term query whose term has nonnegative
idf (its document frequency is at most half the corpus size), adding one
more occurrence of the term to a chunk that already contains it — document
frequencies, corpus size and all other chunks held fixed — never decreases
that chunk's BM25 score.  (The original claim over all queries and document
frequencies is refuted by `bm25_monotonicity_counterexample`.) -/
theorem bm25_single_term_monotone
    (pre post : List (List (List Char))) (ch : List (List Char)) (t : List Char)
    (ht : t ∈ ch)
    (hdf : 2 * docFreq (pre ++ ch :: post) [t] t ≤ (pre ++ ch :: post).length) :
    bm25ScoreTokens (pre ++ ch :: post) [t] pre.length
      ≤ bm25ScoreTokens (pre ++ (t :: ch) :: post) [t] pre.length := by
  have hget : (pre ++ ch :: post).getD pre.length [] = ch :=
    getD_append_cons pre ch post []
  have hget' : (pre ++ (t :: ch) :: post).getD pre.length [] = t :: ch :=
    getD_append_cons pre (t :: ch) post []
  have htf : 0 < ch.count t := List.count_pos_iff.mpr ht
  have hc1 : 0 < ((pre ++ ch :: post).getD pre.length []).count t := by
    rw [hget]; exact htf
  have hc2 : 0 < ((pre ++ (t :: ch) :: post).getD pre.length []).count t := by
    rw [hget', List.count_cons_self]; omega
  rw [bm25ScoreTokens_single _ _ _ hc1, bm25ScoreTokens_single _ _ _ hc2]
  rw [hget, hget']
  have hdfeq : docFreq (pre ++ (t :: ch) :: post) [t] t
      = docFreq (pre ++ ch :: post) [t] t := by
    simp [docFreq, List.filter_append, List.filter_cons, ht]
  have hNeq : (pre ++ (t :: ch) :: post).length = (pre ++ ch :: post).length := by
    simp
  rw [hdfeq, hNeq, List.count_cons_self, List.length_cons]
  have hsum' : ((pre ++ (t :: ch) :: post).map List.length).sum
      = ((pre ++ ch :: post).map List.length).sum + 1 := by
    simp [List.map_append, List.sum_append]
    omega
  have havg' : avgDocLen (pre ++ (t :: ch) :: post)
      = ((((pre ++ ch :: post).map List.length).sum : ℚ) + 1)
        / (((pre ++ ch :: post).length : ℕ) : ℚ) := by
    unfold avgDocLen
    rw [hsum', hNeq]
    push_cast
    ring
  have havg : avgDocLen (pre ++ ch :: post)
      = ((((pre ++ ch :: post).map List.length).sum : ℕ) : ℚ)
        / (((pre ++ ch :: post).length : ℕ) : ℚ) := rfl
  rw [havg', havg]
  have hlog : 0 ≤ Real.log
      ((idfArg (pre ++ ch :: post).length (docFreq (pre ++ ch :: post) [t] t) : ℚ) : ℝ) := by
    apply Real.log_nonneg
    have h1 : (1 : ℚ) ≤ idfArg (pre ++ ch :: post).length (docFreq (pre ++ ch :: post) [t] t) :=
      idfArg_ge_one _ _ hdf
    exact_mod_cast h1
  apply mul_le_mul_of_nonneg_left _ hlog
  have hdl_le : ch.length ≤ ((pre ++ ch :: post).map List.length).sum := by
    apply List.single_le_sum (fun x _ => Nat.zero_le x)
    exact List.mem_map_of_mem List.length (by simp)
  have hN1 : 1 ≤ (pre ++ ch :: post).length := by
    rw [List.length_append, List.length_cons]
    omega
  have hq := tfFactor_le (ch.count t) ch.length
    ((pre ++ ch :: post).map List.length).sum (pre ++ ch :: post).length
    htf (List.count_le_length t ch) hdl_le hN1
  exact_mod_cast hq

/-- Witness for `bm25_single_term_monotone`: corpus `[["a"], ["b"]]`, query
term `a` (df = 1, N = 2), with the occurrence added to the first chunk. -/
theorem bm25_single_term_monotone_witness :
    bm25ScoreTokens [[['a']], [['b']]] [['a']] 0
      ≤ bm25ScoreTokens [[['a'], ['a']], [['b']]] [['a']] 0 :=
  bm25_single_term_monotone [] [[['b']]] [['a']] ['a'] (by decide) (by decide)

/-- Claim C5 (counterexample): in the two-chunk corpus `["a", "a"]` with
query `"a"`, the term `a` occurs in every chunk, so its idf
`ln((2 - 2 + 0.5)/(2 + 0.5)) = ln(1/5)` is negative, and adding one more
occurrence of `a` to chunk 0 (making the corpus `["a a", "a"]`) strictly
decreases chunk 0's BM25 score. -/
theorem bm25_monotonicity_counterexample :
    bm25Score ["a a".data, "a".data] "a".data 0
      < bm25Score ["a".data, "a".data] "a".data 0 := by
  have ht1 : wordTokens "a".data = [['a']] := by decide
  have ht2 : wordTokens "a a".data = [['a'], ['a']] := by decide
  have hA : bm25Score ["a".data, "a".data] "a".data 0
      = Real.log ((1 / 5 : ℚ) : ℝ) * ((1 : ℚ) : ℝ) := by
    unfold bm25Score
    rw [show ["a".data, "a".data].map wordTokens = [[['a']], [['a']]] from by decide,
      ht1]
    rw [bm25ScoreTokens_single _ _ _ (by decide)]
    rw [show ([[['a']], [['a']]] : List (List (List Char))).getD 0 [] = [['a']] from by decide]
    rw [show (([['a']] : List (List Char)).count ['a']) = 1 from by decide]
    rw [show ([['a']] : List (List Char)).length = 1 from by decide]
    rw [show ([[['a']], [['a']]] : List (List (List Char))).length = 2 from by decide]
    rw [show docFreq [[['a']], [['a']]] [['a']] ['a'] = 2 from by decide]
    have hidf : idfArg 2 2 = 1 / 5 := by norm_num [idfArg]
    have havg : avgDocLen [[['a']], [['a']]] = 1 := by
      unfold avgDocLen
      rw [show (([[['a']], [['a']]] : List (List (List Char))).map List.length).sum = 2
        from by decide]
      norm_num
    have hff : tfFactor 1 1 1 = 1 := by norm_num [tfFactor, bm25_k1, bm25_b]
    rw [hidf, havg, hff]
  have hB : bm25Score ["a a".data, "a".data] "a".data 0
      = Real.log ((1 / 5 : ℚ) : ℝ) * ((40 / 31 : ℚ) : ℝ) := by
    unfold bm25Score
    rw [show ["a a".data, "a".data].map wordTokens = [[['a'], ['a']], [['a']]] from by decide,
      ht1]
    rw [bm25ScoreTokens_single _ _ _ (by decide)]
    rw [show ([[['a'], ['a']], [['a']]] : List (List (List Char))).getD 0 []
      = [['a'], ['a']] from by decide]
    rw [show (([['a'], ['a']] : List (List Char)).count ['a']) = 2 from by decide]
    rw [show ([['a'], ['a']] : List (List Char)).length = 2 from by decide]
    rw [show ([[['a'], ['a']], [['a']]] : List (List (List Char))).length = 2 from by decide]
    rw [show docFreq [[['a'], ['a']], [['a']]] [['a']] ['a'] = 2 from by decide]
    have hidf : idfArg 2 2 = 1 / 5 := by norm_num [idfArg]
    have havg : avgDocLen [[['a'], ['a']], [['a']]] = 3 / 2 := by
      unfold avgDocLen
      rw [show (([[['a'], ['a']], [['a']]] : List (List (List Char))).map List.length).sum = 3
        from by decide]
      norm_num
    have hff : tfFactor 2 2 (3 / 2) = 40 / 31 := by norm_num [tfFactor, bm25_k1, bm25_b]
    rw [hidf, havg, hff]
  rw [hA, hB]
  have hlog : Real.log ((1 / 5 : ℚ) : ℝ) < 0 := by
    rw [show ((1 / 5 : ℚ) : ℝ) = (1 / 5 : ℝ) from by norm_num]
    exact Real.log_neg (by norm_num) (by norm_num)
  have hgt : ((1 : ℚ) : ℝ) < ((40 / 31 : ℚ) : ℝ) := by norm_num
  nlinarith [hlog, hgt]

end BabycareRAG
